import Mathlib

/-!
Verification development for the `sudoku-rs` solving engine.

The program is shallowly embedded: a board is a `List Nat` of 81 cells
(0 = unassigned), the propagation round `solveRound` mirrors the Rust
function `solve`, the search frontier is a list of `Branch` values popped
by maximality under the custom comparator `cmpBranch` (mirroring
`impl Ord for Branch` and `BinaryHeap::pop`), and the driver `engine`
mirrors the solving logic of `main`.  Imperative in-place mutation is
modelled by explicit write lists (`applyWrites`), so that per-write
properties (soundness, monotonicity) can be stated.  The two unbounded
loops of `main` are given explicit fuel: fuel 81 for the propagation
fixpoint loop and fuel `searchMeasure pq + 1` for the search loop; both
fuels are proved adequate below (`propagate_done`,
`searchLoop_no_fuel_exhaustion`), so the fuelled functions compute the
same results as the original loops.  `BTreeSet` iteration in ascending
order is modelled by `ascVals`, which is faithful because every iterated
set is a subset of the universe 1–9.
-/

set_option maxRecDepth 16000
set_option maxHeartbeats 1000000
set_option linter.constructorNameAsVariable false
set_option linter.unusedVariables false

namespace SudokuRS

/-- Board: the uncompressed 81-cell game board, row-major, 0 = unassigned. -/
abbrev Board := List Nat

/-- Read a cell (Rust `board[i]`; out-of-range reads default to 0, which
never happens on well-formed 81-cell boards). -/
def bget (b : Board) (i : Nat) : Nat := b.getD i 0

/-- Mirrors the Rust enum `BoardArea`. -/
inductive BoardArea
  | ROW
  | COL
  | REGION
  | ALL
deriving DecidableEq

/-- Mirrors the static universe set `U` (values 1 to 9). -/
def Uni : Finset Nat := Finset.Icc 1 9

/-- Mirrors `fn id(row, col) = 9 * row + col` (named `idx` because `id` is
taken by the Lean core library). -/
def idx (row col : Nat) : Nat := 9 * row + col

/-- Mirrors `fn get_row_start`. -/
def get_row_start (i : Nat) : Nat := (i / 9) * 9

/-- Mirrors `fn get_col_start`. -/
def get_col_start (i : Nat) : Nat := i % 9

/-- Mirrors `fn get_region_start`. -/
def get_region_start (i : Nat) : Nat := ((i / 27) * 27) + (((i % 9) / 3) * 3)

/-- The nine cells scanned by the row arm of `get_used`
(`for j in row_start .. row_start + 9`). -/
def cellsRow (i : Nat) : List Nat := (List.range 9).map (fun j => get_row_start i + j)

/-- The nine cells scanned by the column arm of `get_used`
(`board[9 * j + col_start]` for `j in 0..9`). -/
def cellsCol (i : Nat) : List Nat := (List.range 9).map (fun j => 9 * j + get_col_start i)

/-- The nine cells scanned by the region arm of `get_used`
(`board[9 * j + region_start + k]` for `j, k in 0..3`). -/
def cellsRegion (i : Nat) : List Nat :=
  (List.range 3).flatMap (fun j => (List.range 3).map (fun k => 9 * j + get_region_start i + k))

/-- All cells sharing a row, column or region with `i` (with repetitions,
as scanned by `get_used` for `BoardArea::ALL`). -/
def cellsAll (i : Nat) : List Nat := cellsRow i ++ cellsCol i ++ cellsRegion i

/-- Set of non-zero values found at the given cells (one arm of `get_used`:
each arm inserts every non-zero value it scans into a `BTreeSet`). -/
def usedVals (b : Board) (cells : List Nat) : Finset Nat :=
  ((cells.map (fun j => bget b j)).filter (fun v => v != 0)).toFinset

/-- Mirrors `fn get_used`: the set of used values in the scope of cell `i`. -/
def get_used (b : Board) (i : Nat) : BoardArea → Finset Nat
  | .ROW => usedVals b (cellsRow i)
  | .COL => usedVals b (cellsCol i)
  | .REGION => usedVals b (cellsRegion i)
  | .ALL => usedVals b (cellsRow i) ∪ usedVals b (cellsCol i) ∪ usedVals b (cellsRegion i)

/-- Mirrors `fn get_missing`: missing values in the scope of the given cell. -/
def get_missing (b : Board) (area : BoardArea) (start : Nat) : Finset Nat :=
  Uni \ get_used b start area

/-- The free set of a cell: `U.difference(&get_used(board, i, ALL))`, computed
inline in `solve` and `add_heap` and as `get_missing(board, ALL, i)` in the
hidden-single passes. -/
def freeSet (b : Board) (i : Nat) : Finset Nat := Uni \ get_used b i .ALL

/-- Replay a list of `(position, value)` writes (each Rust `board[p] = v`). -/
def applyWrites (b : Board) (ws : List (Nat × Nat)) : Board :=
  ws.foldl (fun b w => b.set w.1 w.2) b

/-- Ascending iteration over a `BTreeSet<u8>` whose elements lie in 1–9
(every set iterated by the program is a subset of the universe `U`): the
values 1..9 in order, filtered to the set. -/
def ascVals (s : Finset Nat) : List Nat :=
  ((List.range 9).map (fun k => k + 1)).filter (fun v => decide (v ∈ s))

/-- One cell of the naked-single pass of `solve`: if the cell is unassigned
and has exactly one free value, assign it (`*free.iter().next().unwrap()` is
the sole element of the `BTreeSet`, i.e. the head of its ascending order). -/
def nakedStep (acc : Board × List (Nat × Nat)) (i : Nat) : Board × List (Nat × Nat) :=
  if bget acc.1 i = 0 ∧ (freeSet acc.1 i).card = 1 then
    let v := (ascVals (freeSet acc.1 i)).headD 0
    (acc.1.set i v, acc.2 ++ [(i, v)])
  else acc

/-- The naked-single pass of `solve` over all 81 cells in row-major order,
returning the updated board and the writes it performed. -/
def nakedPass (b : Board) : Board × List (Nat × Nat) :=
  (List.range 81).foldl nakedStep (b, [])

/-- Candidate positions for value `v` in one area scan of `solve`: the
unassigned cells of the area whose free set contains `v`, where `v` is
missing from the area (this is `candidates[v]`, built before any of the
area's assignments are applied). -/
def candPos (b : Board) (missing : Finset Nat) (cells : List Nat) (v : Nat) : List Nat :=
  cells.filter (fun p => decide (bget b p = 0 ∧ v ∈ freeSet b p ∧ v ∈ missing))

/-- The hidden-single writes of one area pass of `solve`: for each value
(`BTreeMap` iteration is in ascending value order) whose candidate list has
exactly one position, write the value there (`board[positions[0]] = *value`). -/
def areaWrites (b : Board) (area : BoardArea) (start : Nat) (cells : List Nat) :
    List (Nat × Nat) :=
  let missing := get_missing b area start
  (List.range 9).filterMap (fun k =>
    let v := k + 1
    let ps := candPos b missing cells v
    if ps.length = 1 then some (ps.headD 0, v) else none)

/-- One area instance of a hidden-single pass: compute the writes from the
board state at the start of this area's scan, then apply them. -/
def areaStep (area : BoardArea) (acc : Board × List (Nat × Nat)) (sc : Nat × List Nat) :
    Board × List (Nat × Nat) :=
  let ws := areaWrites acc.1 area sc.1 sc.2
  (applyWrites acc.1 ws, acc.2 ++ ws)

/-- The nine row instances `(start, cells)` scanned by the row pass of
`solve` (start `id(row, 0)`, cells `id(row, col)` for `col in 0..9`). -/
def rowTargets : List (Nat × List Nat) :=
  (List.range 9).map (fun r => (idx r 0, cellsRow (idx r 0)))

/-- The nine column instances scanned by the column pass of `solve`
(start `id(0, col)`, cells `id(row, col)` for `row in 0..9`). -/
def colTargets : List (Nat × List Nat) :=
  (List.range 9).map (fun c => (idx 0 c, cellsCol (idx 0 c)))

/-- The region starts iterated by the region pass of `solve`. -/
def regionStarts : List Nat := [0, 3, 6, 27, 30, 33, 54, 57, 60]

/-- The nine region instances scanned by the region pass of `solve`
(cells `start + 9 * row + col`; `get_region_start start = start` holds for
each of the nine starts, so `cellsRegion start` is exactly that cell list). -/
def regionTargets : List (Nat × List Nat) :=
  regionStarts.map (fun s => (s, cellsRegion s))

/-- The 27 areas of the board (rows, columns, regions), as cell lists. -/
def allAreas : List (List Nat) :=
  rowTargets.map Prod.snd ++ colTargets.map Prod.snd ++ regionTargets.map Prod.snd

/-- Mirrors `fn solve`: one propagation round (naked-single pass, then
hidden-single passes per row, per column, per region), returning the updated
board together with the list of writes; the Rust return value `assigned` is
the length of that write list (each `assigned += 1` pairs with one write). -/
def solveRound (b : Board) : Board × List (Nat × Nat) :=
  let n := nakedPass b
  let r := rowTargets.foldl (areaStep .ROW) n
  let c := colTargets.foldl (areaStep .COL) r
  regionTargets.foldl (areaStep .REGION) c

/-- Mirrors `fn is_solved`: true iff no cell holds 0. -/
def is_solved (b : Board) : Bool := b.all (fun v => v != 0)

/-- Mirrors the propagation fixpoint loop of `main`
(`while assigned > 0 && !is_solved(&board) { assigned = solve(&mut board) }`),
with explicit fuel; fuel 81 is proved adequate below. -/
def propagate : Nat → Board → Board
  | 0, b => b
  | n + 1, b =>
    if is_solved b then b
    else if (solveRound b).2.length = 0 then (solveRound b).1
    else propagate n (solveRound b).1

/-- Mirrors `struct Branch` (fields `_pos`, `_val`, `_cut`, `_depth`,
`_board`). -/
structure Branch where
  pos : Nat
  val : Nat
  cut : Nat
  depth : Nat
  board : Board
deriving DecidableEq

/-- Mirrors `impl Ord for Branch`:
`other._cut.cmp(&self._cut).then_with(self._depth.cmp(&other._depth))
.then_with(other._pos.cmp(&self._pos)).then_with(other._val.cmp(&self._val))`. -/
def cmpBranch (a b : Branch) : Ordering :=
  ((((compare b.cut a.cut).then (compare a.depth b.depth)).then
      (compare b.pos a.pos)).then (compare b.val a.val))

/-- Models `BinaryHeap::pop`: remove and return a maximal element under
`cmpBranch` (Rust leaves the choice among `Ordering::Equal` ties
unspecified; this model takes the leftmost maximal element). -/
def popMax : List Branch → Option (Branch × List Branch)
  | [] => none
  | x :: xs =>
    match popMax xs with
    | none => some (x, [])
    | some (m, r) => if cmpBranch x m = .lt then some (m, x :: r) else some (x, xs)

/-- Mirrors `fn add_heap`: for every unassigned cell (row-major) and every
value of its free set (ascending), push one `Branch` carrying the cell, the
value, the free-set size (`_cut`), the given depth, and a clone of `board`. -/
def add_heap (heap : List Branch) (board : Board) (depth : Nat) : List Branch :=
  (List.range 81).foldl (fun h p =>
    if bget board p ≠ 0 then h
    else
      let used := get_used board p .ALL
      let free := Uni \ used
      h ++ (ascVals free).map (fun v => ⟨p, v, free.card, depth, board⟩)) heap

/-- The branches pushed by one `add_heap` call, as a flat list (equal to the
part `add_heap` appends to the heap; proved in `add_heap_eq`). -/
def newBranches (b : Board) (d : Nat) : List Branch :=
  (List.range 81).flatMap (fun p =>
    if bget b p ≠ 0 then []
    else (ascVals (Uni \ get_used b p .ALL)).map
      (fun v => ⟨p, v, (Uni \ get_used b p .ALL).card, d, b⟩))

/-- Number of unassigned cells among the 81 board positions. -/
def emptyCount (b : Board) : Nat :=
  ((Finset.range 81).filter (fun i => bget b i = 0)).card

/-- Termination measure for the search loop: each frontier entry weighs
`730 ^ emptyCount` of its snapshot (each expansion replaces one entry by at
most 729 entries of strictly smaller weight). -/
def searchMeasure (pq : List Branch) : Nat :=
  (pq.map (fun br => 730 ^ emptyCount br.board)).sum

/-- Mirrors the branch-and-bound loop of `main`
(`while let Some(Branch {..}) = pq.pop()`): pop the maximal branch, apply
its value, run the propagation loop, return the board if solved, else
re-seed the heap at depth + 1.  Explicit fuel; `none` means fuel ran out
(proved impossible for the fuel used by `engine`), `some none` is the
"Could not solve this puzzle." outcome, `some (some g)` the solved grid. -/
def searchLoop : Nat → List Branch → Option (Option Board)
  | 0, _ => none
  | fuel + 1, pq =>
    match popMax pq with
    | none => some none
    | some (br, rest) =>
      if is_solved (propagate 81 (br.board.set br.pos br.val)) then
        some (some (propagate 81 (br.board.set br.pos br.val)))
      else
        searchLoop fuel
          (add_heap rest (propagate 81 (br.board.set br.pos br.val)) (br.depth + 1))

/-- The search phase of `main`, started from the post-propagation grid:
seed the frontier at depth 0 and run the search loop. -/
def searchRun (b1 : Board) : Option (Option Board) :=
  searchLoop (searchMeasure (add_heap [] b1 0) + 1) (add_heap [] b1 0)

/-- The solving logic of `main`: run the propagation loop; if solved report
the grid, otherwise hand the fixpoint grid to the search phase. -/
def engine (b : Board) : Option (Option Board) :=
  if is_solved (propagate 81 b) then some (some (propagate 81 b))
  else searchRun (propagate 81 b)

/-- Models the `--board` input path of `main`: each token is parsed with
`parse::<u8>().unwrap()` (a fatal panic for values ≥ 256), and the only
validation before solving is `assert!(board.len() == 81)`.  `true` means the
input reaches the solver. -/
def board_input_ok (l : List Nat) : Bool :=
  (l.all (fun v => v < 256)) && (l.length == 81)

/-- Well-formedness of a frontier entry: an 81-cell snapshot, an in-range
unassigned position, and a value from that position's free set (all true of
every branch `add_heap` creates). -/
def BranchBasic (br : Branch) : Prop :=
  br.board.length = 81 ∧ br.pos < 81 ∧ bget br.board br.pos = 0 ∧
    br.val ∈ freeSet br.board br.pos

/-- Soundness of a write sequence: each written value is absent from the
written cell's row, column and region at the moment of the write (stated as
an inductive predicate over the replayed writes). -/
inductive writesSound : Board → List (Nat × Nat) → Prop
  | nil {b : Board} : writesSound b []
  | cons {b : Board} {w : Nat × Nat} {ws : List (Nat × Nat)}
      (h1 : w.2 ∉ get_used b w.1 .ALL)
      (h2 : writesSound (b.set w.1 w.2) ws) : writesSound b (w :: ws)

/-- No row, column or region contains the same non-zero value twice. -/
def consistentB (b : Board) : Prop :=
  ∀ A ∈ allAreas, ∀ i ∈ A, ∀ j ∈ A, i ≠ j → bget b i ≠ 0 → bget b i ≠ bget b j

/-- Every cell value is at most 9. -/
def le9B (b : Board) : Prop := ∀ p, bget b p ≤ 9

/-- `b2` agrees with `b1` on every cell assigned in `b1`. -/
def extendsB (b1 b2 : Board) : Prop := ∀ p, bget b1 p ≠ 0 → bget b2 p = bget b1 p

/-- Invariant carried through the four passes of one propagation round:
the board is the replay of the writes so far, the writes are sound, every
write hits a position below 81 with a value in 1–9, and every write target
was unassigned at the start of the round. -/
def RoundInv (b : Board) (acc : Board × List (Nat × Nat)) : Prop :=
  acc.1 = applyWrites b acc.2 ∧ writesSound b acc.2 ∧
    (∀ w ∈ acc.2, w.1 < 81 ∧ 1 ≤ w.2 ∧ w.2 ≤ 9) ∧
    (∀ w ∈ acc.2, bget b w.1 = 0)

/-- A fully solved valid grid (a shifted-rows Latin pattern). -/
def fullGrid : Board :=
  [1, 2, 3, 4, 5, 6, 7, 8, 9,
   4, 5, 6, 7, 8, 9, 1, 2, 3,
   7, 8, 9, 1, 2, 3, 4, 5, 6,
   2, 3, 1, 5, 6, 4, 8, 9, 7,
   5, 6, 4, 8, 9, 7, 2, 3, 1,
   8, 9, 7, 2, 3, 1, 5, 6, 4,
   3, 1, 2, 6, 4, 5, 9, 7, 8,
   6, 4, 5, 9, 7, 8, 3, 1, 2,
   9, 7, 8, 3, 1, 2, 6, 4, 5]

/-- `fullGrid` with cell 0 erased: solvable by one naked single. -/
def almostGrid : Board := fullGrid.set 0 0

/-- Board witnessing the double write of one propagation round: row 0 is
`0 0 3 4 5 6 7 8 9`, and column 1 already holds 1 (cell 28) and 2 (cell 37),
so in row 0 both missing values 1 and 2 can only go to cell 0. -/
def cex10 : Board :=
  [0, 0, 3, 4, 5, 6, 7, 8, 9,
   0, 0, 0, 0, 0, 0, 0, 0, 0,
   0, 0, 0, 0, 0, 0, 0, 0, 0,
   0, 1, 0, 0, 0, 0, 0, 0, 0,
   0, 2, 0, 0, 0, 0, 0, 0, 0,
   0, 0, 0, 0, 0, 0, 0, 0, 0,
   0, 0, 0, 0, 0, 0, 0, 0, 0,
   0, 0, 0, 0, 0, 0, 0, 0, 0,
   0, 0, 0, 0, 0, 0, 0, 0, 0]

/-- An 81-cell input containing the out-of-range cell value 10. -/
def badValInput : List Nat := 10 :: List.replicate 80 0

/-! ### Basic lemmas about cell reads, writes and write replay -/

instance decConsistentB (b : Board) : Decidable (consistentB b) := by
  unfold consistentB; infer_instance

theorem bget_set_ne (b : Board) {q j : Nat} (v : Nat) (h : q ≠ j) :
    bget (b.set q v) j = bget b j := by
  simp [bget, List.getD_eq_getElem?_getD, List.getElem?_set, h]

theorem bget_set_self (b : Board) {q : Nat} (v : Nat) (h : q < b.length) :
    bget (b.set q v) q = v := by
  simp [bget, List.getD_eq_getElem?_getD, List.getElem?_set, h]

theorem bget_set_cases (b : Board) (q v j : Nat) :
    bget (b.set q v) j = bget b j ∨ (j = q ∧ bget (b.set q v) j = v) := by
  by_cases h : q = j
  · subst h
    by_cases hl : q < b.length
    · exact Or.inr ⟨rfl, bget_set_self b v hl⟩
    · left
      have h1 : b[q]? = none := List.getElem?_eq_none (by omega)
      simp [bget, List.getD_eq_getElem?_getD, List.getElem?_set, hl, h1]
  · exact Or.inl (bget_set_ne b v h)

theorem bget_set_eq_or (b : Board) (q v j u : Nat) (h : bget (b.set q v) j = u) :
    bget b j = u ∨ u = v := by
  rcases bget_set_cases b q v j with hc | ⟨_, hc⟩
  · exact Or.inl (hc ▸ h)
  · exact Or.inr (h.symm.trans hc)

theorem applyWrites_nil (b : Board) : applyWrites b [] = b := rfl

theorem applyWrites_cons (b : Board) (w : Nat × Nat) (ws : List (Nat × Nat)) :
    applyWrites b (w :: ws) = applyWrites (b.set w.1 w.2) ws := rfl

theorem applyWrites_append (b : Board) (ws1 ws2 : List (Nat × Nat)) :
    applyWrites b (ws1 ++ ws2) = applyWrites (applyWrites b ws1) ws2 := by
  simp [applyWrites, List.foldl_append]

theorem length_applyWrites (b : Board) (ws : List (Nat × Nat)) :
    (applyWrites b ws).length = b.length := by
  induction ws generalizing b with
  | nil => rfl
  | cons w ws ih => rw [applyWrites_cons, ih, List.length_set]

theorem writesSound_append (b : Board) (ws1 ws2 : List (Nat × Nat)) :
    writesSound b (ws1 ++ ws2) ↔
      writesSound b ws1 ∧ writesSound (applyWrites b ws1) ws2 := by
  induction ws1 generalizing b with
  | nil =>
    rw [List.nil_append, applyWrites_nil]
    exact ⟨fun h => ⟨writesSound.nil, h⟩, fun h => h.2⟩
  | cons w ws ih =>
    rw [List.cons_append, applyWrites_cons]
    constructor
    · intro h
      cases h with
      | cons h1 h2 =>
        have h3 := (ih (b.set w.1 w.2)).mp h2
        exact ⟨writesSound.cons h1 h3.1, h3.2⟩
    · rintro ⟨h1, h2⟩
      cases h1 with
      | cons h3 h4 =>
        exact writesSound.cons h3 ((ih (b.set w.1 w.2)).mpr ⟨h4, h2⟩)

theorem foldl_rec {α : Type} {β : Type} (P : β → Prop) (step : β → α → β)
    (l : List α) (acc : β) (h0 : P acc)
    (hstep : ∀ c a, a ∈ l → P c → P (step c a)) : P (l.foldl step acc) := by
  induction l generalizing acc with
  | nil => exact h0
  | cons x xs ih =>
    exact ih (step acc x) (hstep acc x (by simp) h0)
      (fun c a ha hc => hstep c a (by simp [ha]) hc)

/-! ### Membership characterisations of `get_used` and `freeSet` -/

theorem mem_usedVals {b : Board} {cells : List Nat} {v : Nat} :
    v ∈ usedVals b cells ↔ v ≠ 0 ∧ ∃ j ∈ cells, bget b j = v := by
  simp only [usedVals, List.mem_toFinset, List.mem_filter, List.mem_map, bne_iff_ne]
  tauto

theorem mem_get_used_all {b : Board} {p v : Nat} :
    v ∈ get_used b p .ALL ↔ v ≠ 0 ∧ ∃ j ∈ cellsAll p, bget b j = v := by
  simp only [get_used, Finset.mem_union, mem_usedVals]
  constructor
  · rintro ((⟨hv, j, hj, hb⟩ | ⟨hv, j, hj, hb⟩) | ⟨hv, j, hj, hb⟩)
    · exact ⟨hv, j, by simp [cellsAll, hj], hb⟩
    · exact ⟨hv, j, by simp [cellsAll, hj], hb⟩
    · exact ⟨hv, j, by simp [cellsAll, hj], hb⟩
  · rintro ⟨hv, j, hj, hb⟩
    have hj1 : j ∈ (cellsRow p ++ cellsCol p) ++ cellsRegion p := hj
    rcases List.mem_append.mp hj1 with h12 | h3
    · rcases List.mem_append.mp h12 with h1 | h2
      · exact Or.inl (Or.inl ⟨hv, j, h1, hb⟩)
      · exact Or.inl (Or.inr ⟨hv, j, h2, hb⟩)
    · exact Or.inr ⟨hv, j, h3, hb⟩

theorem mem_freeSet {b : Board} {p v : Nat} :
    v ∈ freeSet b p ↔ (1 ≤ v ∧ v ≤ 9) ∧ ∀ j ∈ cellsAll p, bget b j ≠ v := by
  simp only [freeSet, Finset.mem_sdiff, Uni, Finset.mem_Icc, mem_get_used_all]
  constructor
  · rintro ⟨⟨h1, h9⟩, hn⟩
    refine ⟨⟨h1, h9⟩, fun j hj hv => hn ⟨by omega, j, hj, hv⟩⟩
  · rintro ⟨⟨h1, h9⟩, hn⟩
    exact ⟨⟨h1, h9⟩, fun ⟨_, j, hj, hv⟩ => hn j hj hv⟩

theorem freeSet_not_used {b : Board} {p v : Nat} (h : v ∈ freeSet b p) :
    v ∉ get_used b p .ALL := (Finset.mem_sdiff.mp h).2

theorem freeSet_range {b : Board} {p v : Nat} (h : v ∈ freeSet b p) :
    1 ≤ v ∧ v ≤ 9 := by
  have := (Finset.mem_sdiff.mp h).1
  simpa [Uni, Finset.mem_Icc] using this

theorem mem_ascVals {s : Finset Nat} {v : Nat} :
    v ∈ ascVals s ↔ (1 ≤ v ∧ v ≤ 9) ∧ v ∈ s := by
  simp only [ascVals, List.mem_filter, List.mem_map, List.mem_range,
    decide_eq_true_eq]
  constructor
  · rintro ⟨⟨k, hk, rfl⟩, hm⟩
    exact ⟨⟨by omega, by omega⟩, hm⟩
  · rintro ⟨⟨h1, h9⟩, hm⟩
    exact ⟨⟨v - 1, by omega, by omega⟩, hm⟩

theorem ascVals_headD_mem {s : Finset Nat} (hsub : s ⊆ Uni) (h : s.Nonempty) :
    (ascVals s).headD 0 ∈ s := by
  obtain ⟨x, hx⟩ := h
  have hxu : x ∈ Uni := hsub hx
  rw [Uni, Finset.mem_Icc] at hxu
  have hxm : x ∈ ascVals s := mem_ascVals.mpr ⟨hxu, hx⟩
  cases hs : ascVals s with
  | nil => rw [hs] at hxm; exact absurd hxm (List.not_mem_nil x)
  | cons a l =>
    have ham : a ∈ ascVals s := by rw [hs]; exact List.mem_cons_self a l
    exact (mem_ascVals.mp ham).2

theorem ascVals_nodup (s : Finset Nat) : (ascVals s).Nodup := by
  refine List.Nodup.filter _ ?_
  refine List.Nodup.map ?_ (List.nodup_range 9)
  intro a b hab
  simpa using hab

/-! ### The branch comparator (C7) -/

/-- C7: the `Ord for Branch` comparator realises, under max-heap popping
(`a` pops before `b` iff `cmpBranch a b = .gt`), the order: smallest cut
first; among equal cut, largest depth first; then smallest position; then
smallest value. -/
theorem c7_branch_order (a b : Branch) :
    cmpBranch a b = .gt ↔
      (a.cut < b.cut ∨ (a.cut = b.cut ∧ (b.depth < a.depth ∨ (a.depth = b.depth ∧
        (a.pos < b.pos ∨ (a.pos = b.pos ∧ a.val < b.val)))))) := by
  unfold cmpBranch
  rcases Nat.lt_trichotomy a.cut b.cut with h1 | h1 | h1
  · rw [Nat.compare_eq_gt.mpr h1]
    simp only [Ordering.then]
    exact iff_of_true (by simp) (Or.inl h1)
  · rw [Nat.compare_eq_eq.mpr h1.symm]
    simp only [Ordering.then]
    rcases Nat.lt_trichotomy a.depth b.depth with h2 | h2 | h2
    · rw [Nat.compare_eq_lt.mpr h2]
      simp only [Ordering.then]
      exact iff_of_false (by simp) (by omega)
    · rw [Nat.compare_eq_eq.mpr h2]
      simp only [Ordering.then]
      rcases Nat.lt_trichotomy a.pos b.pos with h3 | h3 | h3
      · rw [Nat.compare_eq_gt.mpr h3]
        simp only [Ordering.then]
        exact iff_of_true (by simp) (Or.inr ⟨h1, Or.inr ⟨h2, Or.inl h3⟩⟩)
      · rw [Nat.compare_eq_eq.mpr h3.symm]
        simp only [Ordering.then]
        rcases Nat.lt_trichotomy a.val b.val with h4 | h4 | h4
        · rw [Nat.compare_eq_gt.mpr h4]
          exact iff_of_true (by simp) (Or.inr ⟨h1, Or.inr ⟨h2, Or.inr ⟨h3, h4⟩⟩⟩)
        · rw [Nat.compare_eq_eq.mpr h4.symm]
          exact iff_of_false (by simp) (by omega)
        · rw [Nat.compare_eq_lt.mpr h4]
          exact iff_of_false (by simp) (by omega)
      · rw [Nat.compare_eq_lt.mpr h3]
        simp only [Ordering.then]
        exact iff_of_false (by simp) (by omega)
    · rw [Nat.compare_eq_gt.mpr h2]
      simp only [Ordering.then]
      exact iff_of_true (by simp) (Or.inr ⟨h1, Or.inl h2⟩)
  · rw [Nat.compare_eq_lt.mpr h1]
    simp only [Ordering.then]
    exact iff_of_false (by simp) (by omega)

/-! ### Input validation (C9) -/

/-- C9 counterexample: it is not the case that every input of wrong length
or with a cell value outside 0–9 is rejected before solving: the 81-cell
input holding a 10 passes the only validation (`assert!(board.len() == 81)`
plus `u8` parsing) and reaches the solver. -/
theorem c9_counterexample :
    ¬ (∀ l : List Nat, (l.length ≠ 81 ∨ ∃ v ∈ l, 9 < v) →
        board_input_ok l = false) := by
  intro h
  have h10 : (10 : Nat) ∈ badValInput := by simp [badValInput]
  have := h badValInput (Or.inr ⟨10, h10, by norm_num⟩)
  rw [show board_input_ok badValInput = true from by decide] at this
  exact absurd this (by decide)

/-- C9 amended: on the `--board` path, inputs whose length differs from 81
are rejected by the assertion, and cell values not representable as `u8`
(≥ 256) abort at parse time — but values 10–255 are accepted and flow into
the engine unvalidated. -/
theorem c9_board_input_rejects (l : List Nat)
    (h : l.length ≠ 81 ∨ ∃ v ∈ l, 256 ≤ v) : board_input_ok l = false := by
  rcases h with h | ⟨v, hv, h256⟩
  · have : (l.length == 81) = false := by simp [h]
    simp [board_input_ok, this]
  · have : l.all (fun v => v < 256) = false := by
      rw [← Bool.not_eq_true, List.all_eq_true]
      intro hall
      have := hall v hv
      simp at this
      omega
    simp [board_input_ok, this]

/-- C9 witness: a length-1 input is rejected. -/
theorem c9_witness : board_input_ok [300] = false :=
  c9_board_input_rejects [300] (Or.inl (by decide))

/-! ### Decomposition and specification of `add_heap` (C8) -/

theorem foldl_if_append {α β : Type} (l : List β) (c : β → Prop)
    [DecidablePred c] (f : β → List α) (init : List α) :
    l.foldl (fun h p => if c p then h else h ++ f p) init
      = init ++ l.flatMap (fun p => if c p then [] else f p) := by
  induction l generalizing init with
  | nil => simp
  | cons x xs ih => by_cases hx : c x <;> simp [hx, ih, List.append_assoc]

theorem add_heap_eq (heap : List Branch) (b : Board) (d : Nat) :
    add_heap heap b d = heap ++ newBranches b d := by
  unfold add_heap newBranches
  exact foldl_if_append (List.range 81) (fun p => bget b p ≠ 0) _ heap

theorem mem_newBranches {b : Board} {d : Nat} {br : Branch} :
    br ∈ newBranches b d ↔
      br.pos < 81 ∧ bget b br.pos = 0 ∧ br.val ∈ freeSet b br.pos ∧
        br.cut = (freeSet b br.pos).card ∧ br.depth = d ∧ br.board = b := by
  unfold newBranches
  rw [List.mem_flatMap]
  constructor
  · rintro ⟨p, hp, hbr⟩
    rw [List.mem_range] at hp
    by_cases h : bget b p = 0
    · rw [if_neg (by simp [h])] at hbr
      rcases List.mem_map.mp hbr with ⟨v, hv, rfl⟩
      have hv2 := (mem_ascVals.mp hv).2
      exact ⟨hp, h, hv2, rfl, rfl, rfl⟩
    · rw [if_pos h] at hbr
      exact absurd hbr (List.not_mem_nil br)
  · rintro ⟨hpos, hzero, hvfree, hcut, hdep, hboard⟩
    refine ⟨br.pos, List.mem_range.mpr hpos, ?_⟩
    rw [if_neg (by simp [hzero])]
    refine List.mem_map.mpr
      ⟨br.val, mem_ascVals.mpr ⟨freeSet_range hvfree, hvfree⟩, ?_⟩
    cases br
    simp only [freeSet] at hcut hvfree
    simp_all

theorem newBranches_nodup (b : Board) (d : Nat) : (newBranches b d).Nodup := by
  unfold newBranches
  rw [List.nodup_flatMap]
  constructor
  · intro p _
    by_cases h : bget b p ≠ 0
    · simp [h]
    · rw [if_neg h]
      refine List.Nodup.map ?_ (ascVals_nodup _)
      intro v1 v2 hv
      simpa using congrArg Branch.val hv
  · refine List.Pairwise.imp ?_ (List.pairwise_lt_range 81)
    intro p q hpq
    intro x hx hx2
    have key : ∀ (r : Nat), x ∈ (if bget b r ≠ 0 then ([] : List Branch)
        else List.map (fun v => (⟨r, v, (Uni \ get_used b r .ALL).card, d, b⟩ : Branch))
          (ascVals (Uni \ get_used b r .ALL))) → x.pos = r := by
      intro r hxx
      by_cases h : bget b r ≠ 0
      · rw [if_pos h] at hxx; exact absurd hxx (List.not_mem_nil x)
      · rw [if_neg h] at hxx
        rcases List.mem_map.mp hxx with ⟨v, _, rfl⟩; rfl
    have h1 : x.pos = p := key p (by simpa only [] using hx)
    have h2 : x.pos = q := key q (by simpa only [] using hx2)
    omega

/-- C8: one `add_heap` call appends to the heap exactly one branch per pair
of an unassigned cell and a value of that cell's free set; each branch
carries the cell, the value, the free-set size as `cut`, the given depth,
and the grid; a cell with an empty free set contributes no branch, and no
pair is pushed twice. -/
theorem c8_add_heap_spec (heap : List Branch) (b : Board) (d : Nat) :
    add_heap heap b d = heap ++ newBranches b d ∧ (newBranches b d).Nodup ∧
      ∀ br : Branch, br ∈ newBranches b d ↔
        br.pos < 81 ∧ bget b br.pos = 0 ∧ br.val ∈ freeSet b br.pos ∧
          br.cut = (freeSet b br.pos).card ∧ br.depth = d ∧ br.board = b :=
  ⟨add_heap_eq heap b d, newBranches_nodup b d, fun _ => mem_newBranches⟩

/-! ### General lemmas about replaying write batches -/

theorem bget_applyWrites_ne (b : Board) (ws : List (Nat × Nat)) (q : Nat)
    (h : ∀ w ∈ ws, w.1 ≠ q) : bget (applyWrites b ws) q = bget b q := by
  induction ws generalizing b with
  | nil => rfl
  | cons w ws ih =>
    rw [applyWrites_cons, ih _ (fun u hu => h u (List.mem_cons_of_mem w hu)),
      bget_set_ne b _ (h w (List.mem_cons_self w ws))]

theorem bget_applyWrites_zero (b : Board) (ws : List (Nat × Nat)) (q : Nat)
    (hv : ∀ w ∈ ws, w.2 ≠ 0) (h : bget (applyWrites b ws) q = 0) :
    bget b q = 0 := by
  induction ws generalizing b with
  | nil => exact h
  | cons w ws ih =>
    have h2 := ih (b.set w.1 w.2) (fun u hu => hv u (List.mem_cons_of_mem w hu)) h
    rcases bget_set_eq_or b w.1 w.2 q 0 h2 with h3 | h3
    · exact h3
    · exact absurd h3.symm (hv w (List.mem_cons_self w ws))

theorem applyWrites_mono (b : Board) (ws : List (Nat × Nat))
    (hz : ∀ w ∈ ws, bget b w.1 = 0) (q : Nat) (hq : bget b q ≠ 0) :
    bget (applyWrites b ws) q = bget b q :=
  bget_applyWrites_ne b ws q (fun w hw e => hq (e ▸ hz w hw))

theorem applyWrites_le9 (b : Board) (ws : List (Nat × Nat))
    (hv : ∀ w ∈ ws, w.2 ≤ 9) (hb : le9B b) : le9B (applyWrites b ws) := by
  induction ws generalizing b with
  | nil => exact hb
  | cons w ws ih =>
    refine ih (b.set w.1 w.2) (fun u hu => hv u (List.mem_cons_of_mem w hu)) ?_
    intro p
    rcases bget_set_cases b w.1 w.2 p with h | ⟨_, h⟩
    · rw [h]; exact hb p
    · rw [h]; exact hv w (List.mem_cons_self w ws)

theorem applyWrites_ext (base b : Board) (ws : List (Nat × Nat))
    (hz : ∀ w ∈ ws, bget base w.1 = 0) (he : extendsB base b) :
    extendsB base (applyWrites b ws) := by
  induction ws generalizing b with
  | nil => exact he
  | cons w ws ih =>
    refine ih (b.set w.1 w.2) (fun u hu => hz u (List.mem_cons_of_mem w hu)) ?_
    intro q hq
    have hne : w.1 ≠ q := fun e => hq (e ▸ hz w (List.mem_cons_self w ws))
    rw [bget_set_ne b _ hne]
    exact he q hq

theorem ec_set_le (b : Board) (p v : Nat) (hv : v ≠ 0) :
    emptyCount (b.set p v) ≤ emptyCount b := by
  apply Finset.card_le_card
  intro i hi
  rw [Finset.mem_filter] at hi ⊢
  refine ⟨hi.1, ?_⟩
  rcases bget_set_eq_or b p v i 0 hi.2 with h | h
  · exact h
  · exact absurd h.symm hv

theorem ec_set_lt (b : Board) (p v : Nat) (h0 : bget b p = 0) (hp : p < 81)
    (hv : v ≠ 0) (hl : b.length = 81) :
    emptyCount (b.set p v) < emptyCount b := by
  apply Finset.card_lt_card
  rw [Finset.ssubset_iff_of_subset]
  · refine ⟨p, Finset.mem_filter.mpr ⟨Finset.mem_range.mpr hp, h0⟩, ?_⟩
    rw [Finset.mem_filter]
    rintro ⟨-, hc⟩
    rw [bget_set_self b v (by omega)] at hc
    exact hv hc
  · intro i hi
    rw [Finset.mem_filter] at hi ⊢
    refine ⟨hi.1, ?_⟩
    rcases bget_set_eq_or b p v i 0 hi.2 with h | h
    · exact h
    · exact absurd h.symm hv

theorem applyWrites_ec_le (b : Board) (ws : List (Nat × Nat))
    (hv : ∀ w ∈ ws, w.2 ≠ 0) : emptyCount (applyWrites b ws) ≤ emptyCount b := by
  induction ws generalizing b with
  | nil => exact le_refl _
  | cons w ws ih =>
    rw [applyWrites_cons]
    exact le_trans (ih (b.set w.1 w.2) (fun u hu => hv u (List.mem_cons_of_mem w hu)))
      (ec_set_le b w.1 w.2 (hv w (List.mem_cons_self w ws)))

theorem applyWrites_ec_lt (b : Board) (w : Nat × Nat) (rest : List (Nat × Nat))
    (h0 : bget b w.1 = 0) (hp : w.1 < 81) (hv : w.2 ≠ 0)
    (hvs : ∀ u ∈ rest, u.2 ≠ 0) (hl : b.length = 81) :
    emptyCount (applyWrites b (w :: rest)) < emptyCount b := by
  rw [applyWrites_cons]
  exact lt_of_le_of_lt (applyWrites_ec_le _ _ hvs) (ec_set_lt b w.1 w.2 h0 hp hv hl)

/-! ### Geometry of the 27 areas (finite facts, settled by evaluation) -/

theorem areas_cells_sub : ∀ A ∈ allAreas, ∀ p ∈ A, ∀ j ∈ A, j ∈ cellsAll p := by decide

theorem areas_lt : ∀ A ∈ allAreas, ∀ j ∈ A, j < 81 := by decide

theorem areas_len_nodup : ∀ A ∈ allAreas, A.length = 9 ∧ A.Nodup := by decide

theorem rowTargets_lt : ∀ sc ∈ rowTargets, ∀ j ∈ sc.2, j < 81 := by decide

theorem colTargets_lt : ∀ sc ∈ colTargets, ∀ j ∈ sc.2, j < 81 := by decide

theorem regionTargets_lt : ∀ sc ∈ regionTargets, ∀ j ∈ sc.2, j < 81 := by decide

/-! ### Consistency is preserved by sound writes -/

theorem pw_consistent (c : Board) (p v : Nat) (hcon : consistentB c)
    (hfree : v ∉ get_used c p .ALL) (hv1 : 1 ≤ v) :
    consistentB (c.set p v) := by
  by_cases hp : p < c.length
  · intro A hA i hi j hj hij hnz
    by_cases hip : i = p
    · subst hip
      rw [bget_set_self c v hp] at hnz ⊢
      rw [bget_set_ne c v hij]
      intro he
      apply hfree
      rw [mem_get_used_all]
      exact ⟨by omega, j, areas_cells_sub A hA i hi j hj, he.symm⟩
    · rw [bget_set_ne c v (fun e => hip e.symm)] at hnz ⊢
      by_cases hjp : j = p
      · subst hjp
        rw [bget_set_self c v hp]
        intro he
        apply hfree
        rw [mem_get_used_all]
        exact ⟨by omega, i, areas_cells_sub A hA j hj i hi, he⟩
      · rw [bget_set_ne c v (fun e => hjp e.symm)]
        exact hcon A hA i hi j hj hij hnz
  · rw [List.set_eq_of_length_le (by omega)]
    exact hcon

theorem applyWrites_consistent (b : Board) (ws : List (Nat × Nat))
    (hs : writesSound b ws) (hf : ∀ w ∈ ws, 1 ≤ w.2) (hcon : consistentB b) :
    consistentB (applyWrites b ws) := by
  induction ws generalizing b with
  | nil => exact hcon
  | cons w ws ih =>
    cases hs with
    | cons hw hs2 =>
      exact ih (b.set w.1 w.2) hs2 (fun u hu => hf u (List.mem_cons_of_mem w hu))
        (pw_consistent b w.1 w.2 hcon hw (hf w (List.mem_cons_self w ws)))

/-! ### The hidden-single pass: candidate lists and their writes -/

theorem mem_candPos {b : Board} {missing : Finset Nat} {cells : List Nat} {v p : Nat} :
    p ∈ candPos b missing cells v ↔
      p ∈ cells ∧ bget b p = 0 ∧ v ∈ freeSet b p ∧ v ∈ missing := by
  simp [candPos, List.mem_filter, and_assoc]

theorem headD_mem {l : List Nat} (h : l.length = 1) : l.headD 0 ∈ l := by
  cases l with
  | nil => simp at h
  | cons a t => exact List.mem_cons_self a t

theorem mem_areaWrites {b : Board} {area : BoardArea} {s : Nat} {cells : List Nat}
    {w : Nat × Nat} (hw : w ∈ areaWrites b area s cells) :
    w.1 ∈ cells ∧ bget b w.1 = 0 ∧ w.2 ∈ freeSet b w.1 ∧
      w.2 ∈ get_missing b area s := by
  unfold areaWrites at hw
  rcases List.mem_filterMap.mp hw with ⟨k, _, hsome⟩
  by_cases hlen : (candPos b (get_missing b area s) cells (k + 1)).length = 1
  · rw [if_pos hlen] at hsome
    obtain rfl := Option.some.inj hsome
    have hmem := mem_candPos.mp (headD_mem hlen)
    exact ⟨hmem.1, hmem.2.1, hmem.2.2.1, hmem.2.2.2⟩
  · rw [if_neg hlen] at hsome
    cases hsome

theorem areaWrites_pairwise_val (b : Board) (area : BoardArea) (s : Nat)
    (cells : List Nat) :
    (areaWrites b area s cells).Pairwise (fun w1 w2 => w1.2 ≠ w2.2) := by
  unfold areaWrites
  rw [List.pairwise_filterMap]
  refine List.Pairwise.imp ?_ (List.pairwise_lt_range 9)
  intro k1 k2 hlt w1 hw1 w2 hw2
  rw [Option.mem_def] at hw1 hw2
  have h1 : w1.2 = k1 + 1 := by
    by_cases h : (candPos b (get_missing b area s) cells (k1 + 1)).length = 1
    · rw [if_pos h] at hw1
      obtain rfl := (Option.some.inj hw1).symm
      rfl
    · rw [if_neg h] at hw1; cases hw1
  have h2 : w2.2 = k2 + 1 := by
    by_cases h : (candPos b (get_missing b area s) cells (k2 + 1)).length = 1
    · rw [if_pos h] at hw2
      obtain rfl := (Option.some.inj hw2).symm
      rfl
    · rw [if_neg h] at hw2; cases hw2
  omega

theorem writesSound_of_fresh (b : Board) (ws : List (Nat × Nat))
    (h1 : ∀ w ∈ ws, w.2 ∉ get_used b w.1 .ALL)
    (h2 : ws.Pairwise (fun w1 w2 => w1.2 ≠ w2.2)) : writesSound b ws := by
  induction ws generalizing b with
  | nil => exact writesSound.nil
  | cons w ws ih =>
    refine writesSound.cons (h1 w (List.mem_cons_self w ws))
      (ih (b.set w.1 w.2) ?_ h2.of_cons)
    intro u hu hmem
    have hbase := h1 u (List.mem_cons_of_mem w hu)
    have hne : w.2 ≠ u.2 := List.rel_of_pairwise_cons h2 hu
    rw [mem_get_used_all] at hmem
    obtain ⟨hv0, j, hj, hbj⟩ := hmem
    rcases bget_set_eq_or b w.1 w.2 j u.2 hbj with h | h
    · exact hbase (mem_get_used_all.mpr ⟨hv0, j, hj, h⟩)
    · exact hne h.symm

theorem areaWrites_sound (b : Board) (area : BoardArea) (s : Nat)
    (cells : List Nat) : writesSound b (areaWrites b area s cells) :=
  writesSound_of_fresh b _
    (fun w hw => freeSet_not_used (mem_areaWrites hw).2.2.1)
    (areaWrites_pairwise_val b area s cells)

/-! ### The round invariant through the four passes -/

theorem nakedPass_inv (b : Board) : RoundInv b (nakedPass b) := by
  unfold nakedPass
  refine foldl_rec (RoundInv b) nakedStep _ _ ⟨rfl, writesSound.nil, by simp, by simp⟩ ?_
  intro acc i hi hP
  obtain ⟨hb, hs, hf, hz⟩ := hP
  unfold nakedStep
  split
  case isTrue hc =>
    have hvmem : (ascVals (freeSet acc.1 i)).headD 0 ∈ freeSet acc.1 i :=
      ascVals_headD_mem Finset.sdiff_subset (Finset.card_pos.mp (by omega))
    refine ⟨?_, ?_, ?_, ?_⟩
    · rw [applyWrites_append, ← hb]; rfl
    · rw [writesSound_append, ← hb]
      exact ⟨hs, writesSound.cons (freeSet_not_used hvmem) writesSound.nil⟩
    · intro w hw
      rcases List.mem_append.mp hw with hw | hw
      · exact hf w hw
      · rw [List.mem_singleton] at hw
        subst hw

        exact ⟨List.mem_range.mp hi, (freeSet_range hvmem).1, (freeSet_range hvmem).2⟩
    · intro w hw
      rcases List.mem_append.mp hw with hw | hw
      · exact hz w hw
      · rw [List.mem_singleton] at hw
        subst hw
        refine bget_applyWrites_zero b acc.2 i ?_ ?_
        · intro u hu
          have := (hf u hu).2.1
          omega
        · rw [← hb]; exact hc.1
  case isFalse hc => exact ⟨hb, hs, hf, hz⟩

theorem areaStep_preserves (b : Board) (area : BoardArea)
    (acc : Board × List (Nat × Nat)) (sc : Nat × List Nat)
    (hcells : ∀ j ∈ sc.2, j < 81) (hP : RoundInv b acc) :
    RoundInv b (areaStep area acc sc) := by
  obtain ⟨hb, hs, hf, hz⟩ := hP
  unfold areaStep
  refine ⟨?_, ?_, ?_, ?_⟩
  · rw [applyWrites_append, ← hb]
  · rw [writesSound_append, ← hb]
    exact ⟨hs, areaWrites_sound acc.1 area sc.1 sc.2⟩
  · intro w hw
    rcases List.mem_append.mp hw with hw | hw
    · exact hf w hw
    · obtain ⟨h1, _, h3, _⟩ := mem_areaWrites hw
      exact ⟨hcells w.1 h1, (freeSet_range h3).1, (freeSet_range h3).2⟩
  · intro w hw
    rcases List.mem_append.mp hw with hw | hw
    · exact hz w hw
    · obtain ⟨_, h2, _, _⟩ := mem_areaWrites hw
      refine bget_applyWrites_zero b acc.2 w.1 ?_ ?_
      · intro u hu
        have := (hf u hu).2.1
        omega
      · rw [← hb]; exact h2

theorem solveRound_inv (b : Board) : RoundInv b (solveRound b) := by
  unfold solveRound
  refine foldl_rec (RoundInv b) (areaStep .REGION) regionTargets _
    (foldl_rec (RoundInv b) (areaStep .COL) colTargets _
      (foldl_rec (RoundInv b) (areaStep .ROW) rowTargets _ (nakedPass_inv b)
        (fun acc sc hsc hP =>
          areaStep_preserves b .ROW acc sc (rowTargets_lt sc hsc) hP))
      (fun acc sc hsc hP =>
        areaStep_preserves b .COL acc sc (colTargets_lt sc hsc) hP))
    (fun acc sc hsc hP =>
      areaStep_preserves b .REGION acc sc (regionTargets_lt sc hsc) hP)

/-! ### Consequences of the round invariant -/

theorem solveRound_board (b : Board) :
    (solveRound b).1 = applyWrites b (solveRound b).2 := by
  obtain ⟨h1, -, -, -⟩ := solveRound_inv b
  exact h1

theorem solveRound_writes_sound (b : Board) : writesSound b (solveRound b).2 := by
  obtain ⟨-, h2, -, -⟩ := solveRound_inv b
  exact h2

theorem solveRound_facts (b : Board) :
    ∀ w ∈ (solveRound b).2, w.1 < 81 ∧ 1 ≤ w.2 ∧ w.2 ≤ 9 := by
  obtain ⟨-, -, h3, -⟩ := solveRound_inv b
  exact h3

theorem solveRound_zero (b : Board) :
    ∀ w ∈ (solveRound b).2, bget b w.1 = 0 := by
  obtain ⟨-, -, -, h4⟩ := solveRound_inv b
  exact h4

theorem solveRound_len (b : Board) : (solveRound b).1.length = b.length := by
  rw [solveRound_board]; exact length_applyWrites b _

theorem solveRound_mono (b : Board) (q : Nat) (hq : bget b q ≠ 0) :
    bget (solveRound b).1 q = bget b q := by
  rw [solveRound_board]
  exact applyWrites_mono b _ (solveRound_zero b) q hq

theorem solveRound_ec_le (b : Board) :
    emptyCount (solveRound b).1 ≤ emptyCount b := by
  rw [solveRound_board]
  refine applyWrites_ec_le b _ ?_
  intro w hw
  have := (solveRound_facts b w hw).2.1
  omega

theorem solveRound_ec_lt (b : Board) (h81 : b.length = 81)
    (hne : (solveRound b).2 ≠ []) :
    emptyCount (solveRound b).1 < emptyCount b := by
  rw [solveRound_board]
  cases hws : (solveRound b).2 with
  | nil => exact absurd hws hne
  | cons w rest =>
    have hwmem : w ∈ (solveRound b).2 := by rw [hws]; exact List.mem_cons_self w rest
    refine applyWrites_ec_lt b w rest (solveRound_zero b w hwmem)
      (solveRound_facts b w hwmem).1 (by have := (solveRound_facts b w hwmem).2.1; omega)
      ?_ h81
    intro u hu
    have : u ∈ (solveRound b).2 := by rw [hws]; exact List.mem_cons_of_mem w hu
    have := (solveRound_facts b u this).2.1
    omega

theorem solveRound_consistent (b : Board) (hc : consistentB b) :
    consistentB (solveRound b).1 := by
  rw [solveRound_board]
  exact applyWrites_consistent b _ (solveRound_writes_sound b)
    (fun w hw => (solveRound_facts b w hw).2.1) hc

theorem solveRound_le9 (b : Board) (h : le9B b) : le9B (solveRound b).1 := by
  rw [solveRound_board]
  exact applyWrites_le9 b _ (fun w hw => (solveRound_facts b w hw).2.2) h

theorem solveRound_ext (base b : Board) (he : extendsB base b) :
    extendsB base (solveRound b).1 := by
  rw [solveRound_board]
  refine applyWrites_ext base b _ ?_ he
  intro w hw
  by_contra hnz
  have h1 := he w.1 hnz
  rw [solveRound_zero b w hw] at h1
  exact hnz h1.symm

theorem solveRound_unchanged (b : Board) (h : (solveRound b).2 = []) :
    (solveRound b).1 = b := by
  rw [solveRound_board, h]; rfl

/-! ### Propagation soundness (C3) and the double write (C10) -/

/-- C3: every value that a single call of the propagation round (`solve`)
writes into a cell is, at the moment it is written, absent from that cell's
row, column and region; moreover the round's result board is exactly the
replay of its write list. -/
theorem c3_propagation_sound (b : Board) :
    writesSound b (solveRound b).2 ∧
      (solveRound b).1 = applyWrites b (solveRound b).2 :=
  ⟨solveRound_writes_sound b, solveRound_board b⟩

/-- C10: the hidden-single candidate lists of an area pass are computed from
the board at the start of that area's scan (`areaWrites` reads only the
pass-start board), and on `cex10` one single round writes value 1 and then
value 2 to the same cell 0, leaves the later value 2 there, and counts both
writes in the returned assignment count (the length of the write list). -/
theorem c10_hidden_single_overwrite :
    (0, 1) ∈ (solveRound cex10).2 ∧ (0, 2) ∈ (solveRound cex10).2 ∧
      bget (solveRound cex10).1 0 = 2 ∧ 2 ≤ (solveRound cex10).2.length := by
  decide

/-! ### The propagation fixpoint loop (C4) -/

theorem emptyCount_le_81 (b : Board) : emptyCount b ≤ 81 := by
  refine le_trans (Finset.card_filter_le _ _) ?_
  simp

theorem is_solved_iff_emptyCount (b : Board) (h81 : b.length = 81) :
    is_solved b = true ↔ emptyCount b = 0 := by
  unfold is_solved emptyCount
  rw [List.all_eq_true, Finset.card_eq_zero, Finset.filter_eq_empty_iff]
  constructor
  · intro h i hi
    rw [Finset.mem_range] at hi
    have hmem : bget b i ∈ b := by
      unfold bget
      rw [List.getD_eq_getElem b 0 (by omega)]
      exact List.getElem_mem _
    have := h _ hmem
    simpa using this
  · intro h v hv
    rcases List.mem_iff_getElem.mp hv with ⟨n, hn, rfl⟩
    have h2 := h (Finset.mem_range.mpr (by omega : n < 81))
    have h3 : bget b n = b[n] := by
      unfold bget
      rw [List.getD_eq_getElem b 0 hn]
    rw [bne_iff_ne]
    rw [← h3]
    exact h2

theorem propagate_done : ∀ (fuel : Nat) (b : Board), b.length = 81 →
    emptyCount b ≤ fuel →
    (is_solved (propagate fuel b) = true ∨
      (solveRound (propagate fuel b)).2 = []) := by
  intro fuel
  induction fuel with
  | zero =>
    intro b h81 h
    left
    rw [show propagate 0 b = b from rfl, is_solved_iff_emptyCount b h81]
    omega
  | succ n ih =>
    intro b h81 h
    rw [show propagate (n + 1) b =
      (if is_solved b then b
       else if (solveRound b).2.length = 0 then (solveRound b).1
       else propagate n (solveRound b).1) from rfl]
    by_cases hs : is_solved b = true
    · rw [if_pos hs]
      exact Or.inl hs
    · rw [if_neg hs]
      by_cases hw : (solveRound b).2.length = 0
      · rw [if_pos hw]
        right
        have hnil : (solveRound b).2 = [] := List.length_eq_zero.mp hw
        rw [solveRound_unchanged b hnil]
        exact hnil
      · rw [if_neg hw]
        refine ih (solveRound b).1 (by rw [solveRound_len]; exact h81) ?_
        have hlt := solveRound_ec_lt b h81
          (fun e => hw (by rw [e]; rfl))
        omega

theorem propagate_len : ∀ (fuel : Nat) (b : Board),
    (propagate fuel b).length = b.length := by
  intro fuel
  induction fuel with
  | zero => intro b; rfl
  | succ n ih =>
    intro b
    rw [show propagate (n + 1) b =
      (if is_solved b then b
       else if (solveRound b).2.length = 0 then (solveRound b).1
       else propagate n (solveRound b).1) from rfl]
    by_cases hs : is_solved b = true
    · rw [if_pos hs]
    · rw [if_neg hs]
      by_cases hw : (solveRound b).2.length = 0
      · rw [if_pos hw, solveRound_len]
      · rw [if_neg hw, ih, solveRound_len]

/-- C4: one propagation round never changes or erases an already assigned
cell (so repeated rounds only add assignments), and starting from any
81-cell grid the fixpoint — a complete grid or a round with zero
assignments — is reached within at most 81 rounds. -/
theorem c4_propagation_monotone (b : Board) (h81 : b.length = 81) :
    (∀ p, bget b p ≠ 0 → bget (solveRound b).1 p = bget b p) ∧
      (is_solved (propagate 81 b) = true ∨
        (solveRound (propagate 81 b)).2 = []) :=
  ⟨fun p hp => solveRound_mono b p hp,
    propagate_done 81 b h81 (emptyCount_le_81 b)⟩

/-- C4 witness: the monotonicity and fixpoint statements instantiated on a
concrete near-complete grid. -/
theorem c4_witness :
    bget (solveRound almostGrid).1 2 = bget almostGrid 2 ∧
      (is_solved (propagate 81 almostGrid) = true ∨
        (solveRound (propagate 81 almostGrid)).2 = []) :=
  ⟨(c4_propagation_monotone almostGrid (by decide)).1 2 (by decide),
    (c4_propagation_monotone almostGrid (by decide)).2⟩

/-! ### Popping the maximal branch -/

theorem popMax_cons_ne_none (x : Branch) (xs : List Branch) :
    popMax (x :: xs) ≠ none := by
  unfold popMax
  cases h : popMax xs with
  | none => simp
  | some mr =>
    by_cases hc : cmpBranch x mr.1 = .lt <;> simp [hc]

theorem popMax_perm : ∀ (pq : List Branch) (m : Branch) (r : List Branch),
    popMax pq = some (m, r) → pq.Perm (m :: r) := by
  intro pq
  induction pq with
  | nil => intro m r h; cases h
  | cons x xs ih =>
    intro m r h
    unfold popMax at h
    cases hx : popMax xs with
    | none =>
      rw [hx] at h
      cases h
      have hxs : xs = [] := by
        cases xs with
        | nil => rfl
        | cons y ys => exact absurd hx (popMax_cons_ne_none y ys)
      subst hxs
      exact List.Perm.refl _
    | some mr =>
      obtain ⟨m2, r2⟩ := mr
      rw [hx] at h
      dsimp only at h
      by_cases hc : cmpBranch x m2 = .lt
      · rw [if_pos hc] at h
        have h2 := Option.some.inj h
        have h3 : m = m2 := (congrArg Prod.fst h2).symm
        have h4 : r = x :: r2 := (congrArg Prod.snd h2).symm
        rw [h3, h4]
        exact ((ih m2 r2 hx).cons x).trans (List.Perm.swap m2 x r2)
      · rw [if_neg hc] at h
        have h2 := Option.some.inj h
        have h3 : m = x := (congrArg Prod.fst h2).symm
        have h4 : r = xs := (congrArg Prod.snd h2).symm
        rw [h3, h4]

theorem popMax_mem {pq : List Branch} {m : Branch} {r : List Branch}
    (h : popMax pq = some (m, r)) : ∀ x ∈ m :: r, x ∈ pq :=
  fun x hx => (popMax_perm pq m r h).mem_iff.mpr hx

/-! ### The search measure -/

theorem searchMeasure_cons (br : Branch) (pq : List Branch) :
    searchMeasure (br :: pq) = 730 ^ emptyCount br.board + searchMeasure pq := by
  simp [searchMeasure]

theorem searchMeasure_append (pq1 pq2 : List Branch) :
    searchMeasure (pq1 ++ pq2) = searchMeasure pq1 + searchMeasure pq2 := by
  simp [searchMeasure]

theorem searchMeasure_perm {pq1 pq2 : List Branch} (h : pq1.Perm pq2) :
    searchMeasure pq1 = searchMeasure pq2 :=
  List.Perm.sum_eq (h.map _)

theorem searchMeasure_const {l : List Branch} {b : Board}
    (h : ∀ br ∈ l, br.board = b) :
    searchMeasure l = l.length * 730 ^ emptyCount b := by
  induction l with
  | nil => simp [searchMeasure]
  | cons x xs ih =>
    rw [searchMeasure_cons, ih (fun br hb => h br (List.mem_cons_of_mem x hb)),
      h x (List.mem_cons_self x xs), List.length_cons]
    ring

theorem newBranches_len (b : Board) (d : Nat) : (newBranches b d).length ≤ 729 := by
  unfold newBranches
  rw [List.length_flatMap]
  refine le_trans (List.sum_le_card_nsmul _ 9 ?_) ?_
  · intro x hx
    rcases List.mem_map.mp hx with ⟨p, hp, rfl⟩
    by_cases h : bget b p ≠ 0
    · simp [h]
    · simp only [Function.comp_apply, if_neg h, List.length_map]
      refine le_trans (List.length_filter_le _ _) ?_
      simp
  · simp [smul_eq_mul]

/-! ### Preservation through the propagation loop -/

theorem propagate_ec_le : ∀ (fuel : Nat) (b : Board),
    emptyCount (propagate fuel b) ≤ emptyCount b := by
  intro fuel
  induction fuel with
  | zero => intro b; exact le_refl _
  | succ n ih =>
    intro b
    rw [show propagate (n + 1) b =
      (if is_solved b then b
       else if (solveRound b).2.length = 0 then (solveRound b).1
       else propagate n (solveRound b).1) from rfl]
    by_cases hs : is_solved b = true
    · rw [if_pos hs]
    · rw [if_neg hs]
      by_cases hw : (solveRound b).2.length = 0
      · rw [if_pos hw]; exact solveRound_ec_le b
      · rw [if_neg hw]; exact le_trans (ih _) (solveRound_ec_le b)

theorem propagate_ext : ∀ (fuel : Nat) (base b : Board),
    extendsB base b → extendsB base (propagate fuel b) := by
  intro fuel
  induction fuel with
  | zero => intro base b h; exact h
  | succ n ih =>
    intro base b h
    rw [show propagate (n + 1) b =
      (if is_solved b then b
       else if (solveRound b).2.length = 0 then (solveRound b).1
       else propagate n (solveRound b).1) from rfl]
    by_cases hs : is_solved b = true
    · rw [if_pos hs]; exact h
    · rw [if_neg hs]
      by_cases hw : (solveRound b).2.length = 0
      · rw [if_pos hw]; exact solveRound_ext base b h
      · rw [if_neg hw]; exact ih base _ (solveRound_ext base b h)

theorem propagate_consistent : ∀ (fuel : Nat) (b : Board),
    consistentB b → consistentB (propagate fuel b) := by
  intro fuel
  induction fuel with
  | zero => intro b h; exact h
  | succ n ih =>
    intro b h
    rw [show propagate (n + 1) b =
      (if is_solved b then b
       else if (solveRound b).2.length = 0 then (solveRound b).1
       else propagate n (solveRound b).1) from rfl]
    by_cases hs : is_solved b = true
    · rw [if_pos hs]; exact h
    · rw [if_neg hs]
      by_cases hw : (solveRound b).2.length = 0
      · rw [if_pos hw]; exact solveRound_consistent b h
      · rw [if_neg hw]; exact ih _ (solveRound_consistent b h)

theorem propagate_le9 : ∀ (fuel : Nat) (b : Board),
    le9B b → le9B (propagate fuel b) := by
  intro fuel
  induction fuel with
  | zero => intro b h; exact h
  | succ n ih =>
    intro b h
    rw [show propagate (n + 1) b =
      (if is_solved b then b
       else if (solveRound b).2.length = 0 then (solveRound b).1
       else propagate n (solveRound b).1) from rfl]
    by_cases hs : is_solved b = true
    · rw [if_pos hs]; exact h
    · rw [if_neg hs]
      by_cases hw : (solveRound b).2.length = 0
      · rw [if_pos hw]; exact solveRound_le9 b h
      · rw [if_neg hw]; exact ih _ (solveRound_le9 b h)

/-! ### Single-cell write preservation lemmas for branch application -/

theorem extendsB_set (base c : Board) (p v : Nat) (he : extendsB base c)
    (hz : bget c p = 0) : extendsB base (c.set p v) := by
  intro q hq
  have hpq : p ≠ q := by
    intro e
    subst e
    have := he p hq
    rw [hz] at this
    exact hq this.symm
  rw [bget_set_ne c v hpq]
  exact he q hq

theorem le9B_set (c : Board) (p v : Nat) (h : le9B c) (hv : v ≤ 9) :
    le9B (c.set p v) := by
  intro q
  rcases bget_set_cases c p v q with h2 | ⟨_, h2⟩
  · rw [h2]; exact h q
  · rw [h2]; exact hv

/-! ### Frontier invariants through the search loop -/

theorem add_heap_basic {rest : List Branch} {b2 : Board} {d : Nat}
    (hrest : ∀ br ∈ rest, BranchBasic br) (hlen : b2.length = 81) :
    ∀ br ∈ add_heap rest b2 d, BranchBasic br := by
  intro x hx
  rw [add_heap_eq] at hx
  rcases List.mem_append.mp hx with hx | hx
  · exact hrest x hx
  · obtain ⟨h1, h2, h3, _, _, h6⟩ := mem_newBranches.mp hx
    exact ⟨by rw [h6]; exact hlen, h1, by rw [h6]; exact h2, by rw [h6]; exact h3⟩

theorem searchLoop_no_fuel_exhaustion : ∀ (fuel : Nat) (pq : List Branch),
    (∀ br ∈ pq, BranchBasic br) → searchMeasure pq < fuel →
    searchLoop fuel pq ≠ none := by
  intro fuel
  induction fuel with
  | zero => intro pq _ hm; omega
  | succ n ih =>
    intro pq hinv hm
    unfold searchLoop
    cases hp : popMax pq with
    | none => simp
    | some brr =>
      obtain ⟨br, rest⟩ := brr
      dsimp only
      by_cases hs : is_solved (propagate 81 (br.board.set br.pos br.val)) = true
      · rw [if_pos hs]; simp
      · rw [if_neg hs]
        obtain ⟨hlen, hpos, hzero, hval⟩ :=
          hinv br (popMax_mem hp br (List.mem_cons_self br rest))
        have hlen2 : (propagate 81 (br.board.set br.pos br.val)).length = 81 := by
          rw [propagate_len, List.length_set]; exact hlen
        refine ih _ ?_ ?_
        · exact add_heap_basic
            (fun x hx2 => hinv x (popMax_mem hp x (List.mem_cons_of_mem br hx2))) hlen2
        · have hperm := popMax_perm pq br rest hp
          have hm2 : searchMeasure pq =
              730 ^ emptyCount br.board + searchMeasure rest := by
            rw [searchMeasure_perm hperm, searchMeasure_cons]
          have hv0 : br.val ≠ 0 := by
            have := (freeSet_range hval).1
            omega
          have he1 : emptyCount (br.board.set br.pos br.val) < emptyCount br.board :=
            ec_set_lt br.board br.pos br.val hzero hpos hv0 hlen
          have he2 : emptyCount (propagate 81 (br.board.set br.pos br.val)) ≤
              emptyCount (br.board.set br.pos br.val) := propagate_ec_le 81 _
          rw [add_heap_eq, searchMeasure_append]
          have hconst :
              searchMeasure
                  (newBranches (propagate 81 (br.board.set br.pos br.val)) (br.depth + 1)) =
                (newBranches (propagate 81 (br.board.set br.pos br.val)) (br.depth + 1)).length *
                  730 ^ emptyCount (propagate 81 (br.board.set br.pos br.val)) :=
            searchMeasure_const (fun br2 h2 => (mem_newBranches.mp h2).2.2.2.2.2)
          have hpow : 730 ^ emptyCount (propagate 81 (br.board.set br.pos br.val)) ≤
              730 ^ (emptyCount br.board - 1) :=
            Nat.pow_le_pow_right (by norm_num) (by omega)
          have hlenb :=
            newBranches_len (propagate 81 (br.board.set br.pos br.val)) (br.depth + 1)
          have hb1 :
              searchMeasure
                  (newBranches (propagate 81 (br.board.set br.pos br.val)) (br.depth + 1)) ≤
                729 * 730 ^ (emptyCount br.board - 1) := by
            rw [hconst]
            exact Nat.mul_le_mul hlenb hpow
          have hb2 : 729 * 730 ^ (emptyCount br.board - 1) < 730 ^ emptyCount br.board := by
            have he : emptyCount br.board = (emptyCount br.board - 1) + 1 := by omega
            rw [he, pow_succ]
            have hpow2 : 0 < 730 ^ (emptyCount br.board - 1) := pow_pos (by norm_num) _
            calc 729 * 730 ^ (emptyCount br.board - 1)
                = 730 ^ (emptyCount br.board - 1) * 729 := by ring
              _ < 730 ^ (emptyCount br.board - 1) * 730 :=
                  mul_lt_mul_of_pos_left (by norm_num) hpow2
          omega

theorem searchLoop_solved : ∀ (fuel : Nat) (pq : List Branch) (g : Board),
    searchLoop fuel pq = some (some g) → is_solved g = true := by
  intro fuel
  induction fuel with
  | zero => intro pq g h; cases h
  | succ n ih =>
    intro pq g h
    unfold searchLoop at h
    cases hp : popMax pq with
    | none =>
      rw [hp] at h
      dsimp only at h
      simp at h
    | some brr =>
      obtain ⟨br, rest⟩ := brr
      rw [hp] at h
      dsimp only at h
      by_cases hs : is_solved (propagate 81 (br.board.set br.pos br.val)) = true
      · rw [if_pos hs] at h
        have h3 := Option.some.inj (Option.some.inj h)
        rw [← h3]
        exact hs
      · rw [if_neg hs] at h
        exact ih _ g h

theorem searchLoop_extendsB : ∀ (fuel : Nat) (pq : List Branch) (base g : Board),
    (∀ br ∈ pq, BranchBasic br ∧ extendsB base br.board) →
    searchLoop fuel pq = some (some g) → extendsB base g := by
  intro fuel
  induction fuel with
  | zero => intro pq base g _ h; cases h
  | succ n ih =>
    intro pq base g hinv h
    unfold searchLoop at h
    cases hp : popMax pq with
    | none =>
      rw [hp] at h
      dsimp only at h
      simp at h
    | some brr =>
      obtain ⟨br, rest⟩ := brr
      rw [hp] at h
      dsimp only at h
      obtain ⟨⟨hlen, hpos, hzero, hval⟩, hext⟩ :=
        hinv br (popMax_mem hp br (List.mem_cons_self br rest))
      have hext2 : extendsB base (propagate 81 (br.board.set br.pos br.val)) :=
        propagate_ext 81 base _ (extendsB_set base br.board br.pos br.val hext hzero)
      have hlen2 : (propagate 81 (br.board.set br.pos br.val)).length = 81 := by
        rw [propagate_len, List.length_set]; exact hlen
      by_cases hs : is_solved (propagate 81 (br.board.set br.pos br.val)) = true
      · rw [if_pos hs] at h
        have h3 := Option.some.inj (Option.some.inj h)
        rw [← h3]
        exact hext2
      · rw [if_neg hs] at h
        refine ih _ base g ?_ h
        intro x hx
        rw [add_heap_eq] at hx
        rcases List.mem_append.mp hx with hx | hx
        · exact hinv x (popMax_mem hp x (List.mem_cons_of_mem br hx))
        · obtain ⟨h1, h2, h3, _, _, h6⟩ := mem_newBranches.mp hx
          exact ⟨⟨by rw [h6]; exact hlen2, h1, by rw [h6]; exact h2,
            by rw [h6]; exact h3⟩, by rw [h6]; exact hext2⟩

theorem searchLoop_consistent : ∀ (fuel : Nat) (pq : List Branch) (g : Board),
    (∀ br ∈ pq, BranchBasic br ∧ consistentB br.board ∧ le9B br.board) →
    searchLoop fuel pq = some (some g) →
    consistentB g ∧ le9B g ∧ g.length = 81 := by
  intro fuel
  induction fuel with
  | zero => intro pq g _ h; cases h
  | succ n ih =>
    intro pq g hinv h
    unfold searchLoop at h
    cases hp : popMax pq with
    | none =>
      rw [hp] at h
      dsimp only at h
      simp at h
    | some brr =>
      obtain ⟨br, rest⟩ := brr
      rw [hp] at h
      dsimp only at h
      obtain ⟨⟨hlen, hpos, hzero, hval⟩, hcons, hle9⟩ :=
        hinv br (popMax_mem hp br (List.mem_cons_self br rest))
      have hcons2 : consistentB (propagate 81 (br.board.set br.pos br.val)) :=
        propagate_consistent 81 _
          (pw_consistent br.board br.pos br.val hcons (freeSet_not_used hval)
            (freeSet_range hval).1)
      have hle92 : le9B (propagate 81 (br.board.set br.pos br.val)) :=
        propagate_le9 81 _ (le9B_set br.board br.pos br.val hle9 (freeSet_range hval).2)
      have hlen2 : (propagate 81 (br.board.set br.pos br.val)).length = 81 := by
        rw [propagate_len, List.length_set]; exact hlen
      by_cases hs : is_solved (propagate 81 (br.board.set br.pos br.val)) = true
      · rw [if_pos hs] at h
        have h3 := Option.some.inj (Option.some.inj h)
        rw [← h3]
        exact ⟨hcons2, hle92, hlen2⟩
      · rw [if_neg hs] at h
        refine ih _ g ?_ h
        intro x hx
        rw [add_heap_eq] at hx
        rcases List.mem_append.mp hx with hx | hx
        · exact hinv x (popMax_mem hp x (List.mem_cons_of_mem br hx))
        · obtain ⟨h1, h2, h3, _, _, h6⟩ := mem_newBranches.mp hx
          exact ⟨⟨by rw [h6]; exact hlen2, h1, by rw [h6]; exact h2,
            by rw [h6]; exact h3⟩, by rw [h6]; exact hcons2, by rw [h6]; exact hle92⟩

/-! ### Validity of complete consistent grids -/

theorem le9B_of_forall (b : Board) (hv : ∀ v ∈ b, v ≤ 9) : le9B b := by
  intro p
  by_cases hp : p < b.length
  · have hmem : bget b p ∈ b := by
      unfold bget
      rw [List.getD_eq_getElem b 0 hp]
      exact List.getElem_mem _
    exact hv _ hmem
  · unfold bget
    rw [List.getD_eq_getElem?_getD, List.getElem?_eq_none (by omega)]
    simp

theorem exact_once (g : Board) (hsol : is_solved g = true) (hlen : g.length = 81)
    (hl9 : le9B g) (hcons : consistentB g) :
    ∀ A ∈ allAreas, ∀ v, 1 ≤ v → v ≤ 9 →
      (A.map (fun i => bget g i)).count v = 1 := by
  intro A hA v hv1 hv9
  obtain ⟨hlen9, hnodup⟩ := areas_len_nodup A hA
  have hlt := areas_lt A hA
  have hnz : ∀ j ∈ A, bget g j ≠ 0 := by
    intro j hj
    have hj81 := hlt j hj
    have hmem : bget g j ∈ g := by
      unfold bget
      rw [List.getD_eq_getElem g 0 (by omega)]
      exact List.getElem_mem _
    have := (List.all_eq_true.mp hsol) _ hmem
    simpa using this
  have hmn : (A.map (fun i => bget g i)).Nodup := by
    refine List.Nodup.map_on ?_ hnodup
    intro x hx y hy hf
    by_contra hne
    exact hcons A hA x hx y hy hne (hnz x hx) hf
  have hsub : (A.map (fun i => bget g i)).toFinset ⊆ Finset.Icc 1 9 := by
    intro u hu
    rw [List.mem_toFinset] at hu
    rcases List.mem_map.mp hu with ⟨j, hj, rfl⟩
    rw [Finset.mem_Icc]
    exact ⟨by have := hnz j hj; omega, hl9 j⟩
  have heq : (A.map (fun i => bget g i)).toFinset = Finset.Icc 1 9 := by
    refine Finset.eq_of_subset_of_card_le hsub ?_
    rw [List.toFinset_card_of_nodup hmn, List.length_map, hlen9, Nat.card_Icc]
  have hvmem : v ∈ A.map (fun i => bget g i) := by
    rw [← List.mem_toFinset, heq, Finset.mem_Icc]
    exact ⟨hv1, hv9⟩
  exact List.count_eq_one_of_mem hmn hvmem

/-! ### The engine-level claims -/

/-- C1: starting from any 81-cell grid with values 0–9 in which no row,
column or 3x3 region holds the same non-zero value twice, any grid the
engine reports as solved contains each of 1–9 exactly once in every row,
column and region. -/
theorem c1_validity (b : Board) (h81 : b.length = 81) (hv : ∀ v ∈ b, v ≤ 9)
    (hc : consistentB b) :
    ∀ g, engine b = some (some g) → ∀ A ∈ allAreas, ∀ v, 1 ≤ v → v ≤ 9 →
      (A.map (fun i => bget g i)).count v = 1 := by
  intro g hg
  have hb1c : consistentB (propagate 81 b) := propagate_consistent 81 b hc
  have hb1l9 : le9B (propagate 81 b) := propagate_le9 81 b (le9B_of_forall b hv)
  have hb1len : (propagate 81 b).length = 81 := by rw [propagate_len]; exact h81
  unfold engine at hg
  by_cases hs : is_solved (propagate 81 b) = true
  · rw [if_pos hs] at hg
    have h3 := Option.some.inj (Option.some.inj hg)
    rw [← h3]
    exact exact_once _ hs hb1len hb1l9 hb1c
  · rw [if_neg hs] at hg
    unfold searchRun at hg
    have hsol := searchLoop_solved _ _ g hg
    have hinv : ∀ br ∈ add_heap [] (propagate 81 b) 0,
        BranchBasic br ∧ consistentB br.board ∧ le9B br.board := by
      intro x hx
      rw [add_heap_eq] at hx
      rcases List.mem_append.mp hx with hx | hx
      · exact absurd hx (List.not_mem_nil x)
      · obtain ⟨h1, h2, h3, _, _, h6⟩ := mem_newBranches.mp hx
        exact ⟨⟨by rw [h6]; exact hb1len, h1, by rw [h6]; exact h2,
          by rw [h6]; exact h3⟩, by rw [h6]; exact hb1c, by rw [h6]; exact hb1l9⟩
    obtain ⟨hgc, hgl9, hglen⟩ := searchLoop_consistent _ _ g hinv hg
    exact exact_once g hsol hglen hgl9 hgc

/-- C1 witness: the validity conclusion instantiated on the near-complete
grid `almostGrid`, which the engine solves to `fullGrid`. -/
theorem c1_witness :
    (List.map (fun i => bget fullGrid i) (cellsRow 0)).count 5 = 1 :=
  c1_validity almostGrid (by decide) (by decide) (by decide) fullGrid (by decide)
    (cellsRow 0) (by decide) 5 (by decide) (by decide)

/-- C2: on any 81-cell input with values 0–9 the engine terminates — the
fuelled model never exhausts its fuel, so the run ends either with a solved
grid or with the explicit unsolvable outcome. -/
theorem c2_engine_terminates (b : Board) (h81 : b.length = 81)
    (hv : ∀ v ∈ b, v ≤ 9) :
    (∃ g, engine b = some (some g)) ∨ engine b = some none := by
  unfold engine
  by_cases hs : is_solved (propagate 81 b) = true
  · rw [if_pos hs]
    exact Or.inl ⟨_, rfl⟩
  · rw [if_neg hs]
    unfold searchRun
    have hb1len : (propagate 81 b).length = 81 := by rw [propagate_len]; exact h81
    have hinv : ∀ br ∈ add_heap [] (propagate 81 b) 0, BranchBasic br :=
      add_heap_basic (fun x hx => absurd hx (List.not_mem_nil x)) hb1len
    have hno := searchLoop_no_fuel_exhaustion
      (searchMeasure (add_heap [] (propagate 81 b) 0) + 1)
      (add_heap [] (propagate 81 b) 0) hinv (Nat.lt_succ_self _)
    cases hcase : searchLoop (searchMeasure (add_heap [] (propagate 81 b) 0) + 1)
        (add_heap [] (propagate 81 b) 0) with
    | none => exact absurd hcase hno
    | some o =>
      cases o with
      | none => exact Or.inr rfl
      | some g => exact Or.inl ⟨g, rfl⟩

/-- C2 witness: the termination disjunction instantiated on `almostGrid`. -/
theorem c2_witness :
    (∃ g, engine almostGrid = some (some g)) ∨ engine almostGrid = some none :=
  c2_engine_terminates almostGrid (by decide) (by decide)

/-- C5: whenever the search phase reports success, the returned grid agrees
with the pre-search grid on every cell that was already assigned there; only
cells that were 0 at the start of the search can differ. -/
theorem c5_search_frame (b1 : Board) (h81 : b1.length = 81) :
    ∀ g, searchRun b1 = some (some g) → extendsB b1 g := by
  intro g hg
  unfold searchRun at hg
  have hinv : ∀ br ∈ add_heap [] b1 0, BranchBasic br ∧ extendsB b1 br.board := by
    intro x hx
    rw [add_heap_eq] at hx
    rcases List.mem_append.mp hx with hx | hx
    · exact absurd hx (List.not_mem_nil x)
    · obtain ⟨h1, h2, h3, _, _, h6⟩ := mem_newBranches.mp hx
      exact ⟨⟨by rw [h6]; exact h81, h1, by rw [h6]; exact h2,
        by rw [h6]; exact h3⟩, by rw [h6]; exact fun p _ => rfl⟩
  exact searchLoop_extendsB _ _ b1 g hinv hg

/-- C5 witness: the frame property applied to a search run on `almostGrid`
(which succeeds with `fullGrid`), at the assigned cell 1. -/
theorem c5_witness : bget fullGrid 1 = bget almostGrid 1 :=
  c5_search_frame almostGrid (by decide) fullGrid (by decide) 1 (by decide)

/-- C6: the engine reports success only for grids that satisfy `is_solved`
(no cell holds 0), and when the frontier empties the search loop returns the
explicit unsolvable outcome rather than any grid. -/
theorem c6_failure_signal (b : Board) :
    (∀ g, engine b = some (some g) → is_solved g = true) ∧
      (∀ (pq : List Branch) (fuel : Nat), popMax pq = none →
        searchLoop (fuel + 1) pq = some none) := by
  constructor
  · intro g hg
    unfold engine at hg
    by_cases hs : is_solved (propagate 81 b) = true
    · rw [if_pos hs] at hg
      have h3 := Option.some.inj (Option.some.inj hg)
      rw [← h3]
      exact hs
    · rw [if_neg hs] at hg
      exact searchLoop_solved _ _ g hg
  · intro pq fuel hp
    unfold searchLoop
    rw [hp]

/-- C6 witness: a solved engine result indeed satisfies `is_solved`, and the
empty frontier yields the explicit failure signal. -/
theorem c6_witness : is_solved fullGrid = true ∧ searchLoop 1 [] = some none :=
  ⟨(c6_failure_signal almostGrid).1 fullGrid (by decide),
    (c6_failure_signal almostGrid).2 [] 0 rfl⟩

end SudokuRS
